import Mathlib

/-!
Verification of the layout solver of the kas widget toolkit.

The development shallowly embeds the layout subsystem: the numeric core
(proportional distribution and the sequence solver), the row solver and
setter, the storage flavours, axis bookkeeping, and popup placement.
Machine integers (u32, i32, u16, usize) are modelled as Nat and Int; the
inputs exercised stay far below the overflow thresholds.
-/

/-- Stretch priority tiers, ordered Fixed < Low < High < Filler.
Modelled from the spec: the defining module (layout/size_rules.rs) is not
among the sources; the spec gives the ordered tiers and that higher tiers
receive slack preferentially. -/
inductive StretchPolicy
  | stretchFixed
  | low
  | high
  | filler
deriving DecidableEq

/-- Numeric rank of a stretch tier, used to compare tiers. -/
def StretchPolicy.rank : StretchPolicy → Nat
  | .stretchFixed => 0
  | .low => 1
  | .high => 2
  | .filler => 3

/-- The greater (more eager) of two stretch tiers. -/
def StretchPolicy.max (a b : StretchPolicy) : StretchPolicy :=
  if a.rank ≤ b.rank then b else a

/-- Size requirements of one widget or group along one axis.
Modelled from the spec: min and ideal bounds, a margin pair and a stretch
tier; the defining module is not among the sources. -/
structure SizeRules where
  min : Nat
  ideal : Nat
  m0 : Nat
  m1 : Nat
  stretch : StretchPolicy
deriving DecidableEq

/-- The neutral element for sequential combination. -/
def SizeRules.EMPTY : SizeRules := ⟨0, 0, 0, 0, .stretchFixed⟩

/-- Rules for content of a fixed size. -/
def SizeRules.fixedRule (size : Nat) : SizeRules := ⟨size, size, 0, 0, .stretchFixed⟩

/-- Sequential combination of two rules (children one after another).
Modelled from the spec: min and ideal add, the outer margins of the two
ends are kept (the adjoining interior margins collapse), and the stretch
is the most eager tier present. -/
def SizeRules.add (a b : SizeRules) : SizeRules :=
  ⟨a.min + b.min, a.ideal + b.ideal, a.m0, b.m1, a.stretch.max b.stretch⟩

/-- Parallel combination of two rules (children sharing the axis).
Modelled from the spec: min, ideal and margins take the elementwise max,
and the stretch is the most eager tier present. -/
def SizeRules.max (a b : SizeRules) : SizeRules :=
  ⟨Nat.max a.min b.min, Nat.max a.ideal b.ideal,
   Nat.max a.m0 b.m0, Nat.max a.m1 b.m1, a.stretch.max b.stretch⟩

/-- Ideal clamped up to min (the spec recommends clamping ideal up to min
when the invariant min ≤ ideal is violated). -/
def SizeRules.idealC (r : SizeRules) : Nat := Nat.max r.min r.ideal

/-- Remaining headroom between min and ideal. -/
def SizeRules.headroom (r : SizeRules) : Nat := r.ideal - r.min

/-- Ceiling of the proportional share t * x / w, with the degenerate
zero-weight case yielding zero. -/
def ceilShare (t x w : Nat) : Nat :=
  if w = 0 then 0 else (t * x + w - 1) / w

/-- Exact proportional distribution, sequential form: each entry receives
the ceiling of its proportional share of the remaining total, computed
against the remaining weight. This realises the spec's requirement that
the distribution be exact in integer arithmetic with the remainder
assigned to the first entries in index order. -/
def distribGo : Nat → Nat → List Nat → List Nat
  | _, _, [] => []
  | t, w, x :: xs =>
    ceilShare t x w :: distribGo (t - ceilShare t x w) (w - x) xs

/-- Distribute a total among entries proportionally to their weights,
remainder to the first entries in index order. -/
def distribute (total : Nat) (ws : List Nat) : List Nat :=
  distribGo total ws.sum ws

/-- Equal shares for the entries flagged true: each flagged entry receives
q, and additionally one unit while r lasts (so the first r flagged entries
in index order receive the remainder). -/
def tierShares (q : Nat) : Nat → List Bool → List Nat
  | _, [] => []
  | r, b :: bs =>
    if b then (q + if 0 < r then 1 else 0) :: tierShares q (r - 1) bs
    else 0 :: tierShares q r bs

/-- The total inter-child margin of a sequence of n children. -/
def gapTotal (n g : Nat) : Nat := (n - 1) * g

/-- Grow-phase widths: start every entry at its min and distribute the
slack proportionally to the remaining headroom. -/
def growWidths (slack : Nat) (rules : List SizeRules) : List Nat :=
  List.zipWith (· + ·) (rules.map SizeRules.min)
    (distribute slack (rules.map SizeRules.headroom))

/-- The most eager stretch tier present in a sequence. -/
def maxTier (rules : List SizeRules) : StretchPolicy :=
  rules.foldl (fun a r => a.max r.stretch) .stretchFixed

/-- Stretch-phase widths: every entry at its (clamped) ideal, with the
leftover slack split equally among the entries of the most eager tier,
remainder to the first of them; entries of the Fixed tier never receive
stretch slack, so with an all-Fixed sequence the leftover is dropped. -/
def stretchWidths (leftover : Nat) (rules : List SizeRules) : List Nat :=
  let tier := maxTier rules
  if tier = .stretchFixed then rules.map SizeRules.idealC
  else
    let bs := rules.map (fun r => r.stretch == tier)
    let p := bs.count true
    List.zipWith (· + ·) (rules.map SizeRules.idealC)
      (tierShares (leftover / p) (leftover % p) bs)

/-- Modelled from the spec: SizeRules::solve_seq, whose defining module
(layout/size_rules.rs) is not among the sources. Given a target extent, an
inter-child margin and the children's rules, compute per-child pixel
widths: grow phase from the minimums proportionally to headroom, stretch
phase by most-eager tier, shrink phase proportionally toward zero when the
target is below the sum of minimums plus margins. -/
def SizeRules.solve_seq (target g : Nat) (rules : List SizeRules) : List Nat :=
  let avail := target - gapTotal rules.length g
  let minSum := (rules.map SizeRules.min).sum
  if minSum ≤ avail then
    let slack := avail - minSum
    let used := (rules.map SizeRules.headroom).sum
    if slack ≤ used then growWidths slack rules
    else stretchWidths (slack - used) rules
  else distribute avail (rules.map SizeRules.min)

/-- Information on which axis is being resized, and the size of the other
axis if fixed. Embeds AxisInfo from src/src/layout/mod.rs. -/
structure AxisInfo where
  vertical : Bool
  has_fixed : Bool
  other_axis : Nat
deriving DecidableEq

/-- Constructor with direction and an optional value for the other axis
(AxisInfo::new in src/src/layout/mod.rs). -/
def AxisInfo.new (vertical : Bool) (fixed : Option Nat) : AxisInfo :=
  ⟨vertical, fixed.isSome, fixed.getD 0⟩

/-- True if the current axis is vertical. -/
def AxisInfo.is_vertical (a : AxisInfo) : Bool := a.vertical

/-- True if the current axis is horizontal. -/
def AxisInfo.is_horizontal (a : AxisInfo) : Bool := !a.vertical

/-- Size of the other axis, if fixed. -/
def AxisInfo.other (a : AxisInfo) : Option Nat :=
  if a.has_fixed then some a.other_axis else none

/-- FixedRowStorage::set_len (src/src/layout/row_solver.rs lines 48-50):
asserts that the requested length equals the backing array's length and
does not modify the rules. The assertion failure (panic) is modelled as
none. -/
def FixedRowStorage.set_len (rules : List SizeRules) (len : Nat) : Option (List SizeRules) :=
  if rules.length = len then some rules else none

/-- DynRowStorage::set_len (src/src/layout/row_solver.rs lines 68-70):
Vec::resize semantics, truncating or filling with SizeRules::EMPTY. -/
def DynRowStorage.set_len (rules : List SizeRules) (len : Nat) : List SizeRules :=
  rules.take len ++ List.replicate (len - rules.length) SizeRules.EMPTY

/-- Wrapper for the call SizeRules::solve_seq(widths, storage.as_ref(), target)
made by RowSolver::new and RowSetter::new. Modelled from the spec: the
function's defining module is absent; per the spec it consumes the n
children's rules (the call site passes the n+1-slot storage whose last
slot holds the aggregate), and the inter-child margin does not appear at
this call boundary, so it is taken as 0. -/
def solveSeqCall (n : Nat) (storage : List SizeRules) (target : Nat) : List Nat :=
  SizeRules.solve_seq target 0 (storage.take n)

/-- State of RowSolver (src/src/layout/row_solver.rs lines 135-143). The
direction parameter D is passed explicitly as dvert = D::is_vertical();
the persistent storage is threaded explicitly. The storage is modelled
with the dynamic flavour's set_len (FixedRowStorage::set_len is the
identity whenever it does not panic). -/
structure RowSolver where
  axis : AxisInfo
  axis_is_vertical : Bool
  rules : SizeRules
  widths : List Nat

/-- RowSolver::new (src/src/layout/row_solver.rs lines 150-171): resize the
temporary widths (all zero) and the storage to n+1 slots; when the other
axis is fixed and the measured axis is perpendicular to the row direction,
pre-solve the children's main-axis widths from the cached storage. -/
def RowSolver.new (axis : AxisInfo) (n : Nat) (dvert : Bool) (storage : List SizeRules) :
    RowSolver × List SizeRules :=
  let storage1 := DynRowStorage.set_len storage (n + 1)
  let aiv := Bool.xor axis.vertical dvert
  let widths :=
    if axis.has_fixed && aiv then solveSeqCall n storage1 axis.other_axis
    else List.replicate n 0
  (⟨axis, aiv, SizeRules.EMPTY, widths⟩, storage1)

/-- The AxisInfo passed to child i by RowSolver::for_child: on a cross-axis
pass with the other axis fixed, the other-axis size is replaced by child
i's own solved width (src/src/layout/row_solver.rs lines 184-186). -/
def RowSolver.childAxis (s : RowSolver) (i : Nat) : AxisInfo :=
  if s.axis.has_fixed && s.axis_is_vertical then
    { s.axis with other_axis := s.widths.getD i 0 }
  else s.axis

/-- RowSolver::for_child (src/src/layout/row_solver.rs lines 178-194): query
the child with the adjusted axis; on the main axis store its rules in slot
i and sequential-combine them into the running total, on the cross axis
parallel-combine them, leaving storage untouched. -/
def RowSolver.for_child (s : RowSolver) (storage : List SizeRules) (i : Nat)
    (child_rules : AxisInfo → SizeRules) : RowSolver × List SizeRules :=
  let axis := s.childAxis i
  let cr := child_rules axis
  if !s.axis_is_vertical then
    ({ s with axis := axis, rules := s.rules.add cr }, storage.set i cr)
  else
    ({ s with axis := axis, rules := s.rules.max cr }, storage)

/-- RowSolver::finish (src/src/layout/row_solver.rs lines 196-212): on the
main axis write the accumulated total into the last storage slot; return
the total. -/
def RowSolver.finish (s : RowSolver) (storage : List SizeRules) :
    SizeRules × List SizeRules :=
  let cols := storage.length - 1
  if !s.axis_is_vertical then (s.rules, storage.set cols s.rules)
  else (s.rules, storage)

/-- One step of a measurement pass: feed child ic.1 with query ic.2. -/
def rowStep (p : RowSolver × List SizeRules) (ic : Nat × (AxisInfo → SizeRules)) :
    RowSolver × List SizeRules :=
  RowSolver.for_child p.1 p.2 ic.1 ic.2

/-- A complete RowSolver measurement pass: new, for_child on every child in
index order, finish. Returns the aggregated rules and the final storage. -/
def runRowPass (axis : AxisInfo) (dvert : Bool) (children : List (AxisInfo → SizeRules))
    (storage : List SizeRules) : SizeRules × List SizeRules :=
  let init := RowSolver.new axis children.length dvert storage
  let fin := children.enum.foldl rowStep init
  RowSolver.finish fin.1 fin.2

/-- A pixel rectangle: position (i32 pair) and size (u32 pair), origin
top-left. The geometry module is absent from the sources; the fields
follow the spec's Rect data model. -/
structure Rect where
  posx : Int
  posy : Int
  sizex : Nat
  sizey : Nat
deriving DecidableEq

/-- Outer margins at each edge of a sequence plus the per-axis inter-child
gaps, following the spec's Margins data model (the defining module is
absent from the sources; the first/last components are sizes, as they are
subtracted from the u32 extent). -/
structure Margins where
  firstx : Nat
  firsty : Nat
  lastx : Nat
  lasty : Nat
  interx : Nat
  intery : Nat

/-- State of RowSetter (src/src/layout/row_solver.rs lines 222-228), with
the direction parameter stored explicitly. -/
structure RowSetter where
  crect : Rect
  inter : Nat
  widths : List Nat
  vertical : Bool

/-- RowSetter::new (src/src/layout/row_solver.rs lines 231-258): shrink the
rect by the outer margins, zero the main-axis extent of the child cursor
rectangle (the code's "hack to get correct first offset"), and solve the
per-child widths from the cached storage over the remaining extent. -/
def RowSetter.new (rect : Rect) (margins : Margins) (n : Nat) (dvert : Bool)
    (storage : List SizeRules) : RowSetter × List SizeRules :=
  let storage1 := DynRowStorage.set_len storage (n + 1)
  let px := rect.posx + (margins.firstx : Int)
  let py := rect.posy + (margins.firsty : Int)
  let sx := rect.sizex - (margins.firstx + margins.lastx)
  let sy := rect.sizey - (margins.firsty + margins.lasty)
  let cwi : Rect × Nat × Nat :=
    if !dvert then (⟨px, py, 0, sy⟩, sx, margins.interx)
    else (⟨px, py, sx, 0⟩, sy, margins.intery)
  let widths := solveSeqCall n storage1 cwi.2.1
  (⟨cwi.1, cwi.2.2, widths, dvert⟩, storage1)

/-- RowSetter::child_rect (src/src/layout/row_solver.rs lines 264-273):
advance the cursor position by the previous extent plus the inter margin,
then set the extent to child i's solved width; returns the updated cursor
rectangle together with the updated setter. -/
def RowSetter.child_rect (s : RowSetter) (i : Nat) : Rect × RowSetter :=
  let c := s.crect
  let c1 :=
    if !s.vertical then
      { c with posx := c.posx + ((c.sizex + s.inter : Nat) : Int),
               sizex := s.widths.getD i 0 }
    else
      { c with posy := c.posy + ((c.sizey + s.inter : Nat) : Int),
               sizey := s.widths.getD i 0 }
  (c1, { s with crect := c1 })

/-- Room before the anchor on the primary axis (Window::resize_popup,
src/src/widget/window.rs line 234-235). -/
def roomBefore (rp cp : Int) (m1 : Nat) : Nat := (cp - (rp + (m1 : Int))).toNat

/-- Room after the anchor on the primary axis (src/src/widget/window.rs
line 236), saturating at zero. -/
def roomAfter (rs cs before m0 : Nat) : Nat := rs - (cs + before + m0)

/-- Primary-axis popup placement (the place_in closure of
Window::resize_popup, src/src/widget/window.rs lines 233-250). -/
def place_in (reversed : Bool) (rp : Int) (rs : Nat) (cp : Int) (cs ideal m0 m1 : Nat) :
    Int × Nat :=
  let before := roomBefore rp cp m1
  let after := roomAfter rs cs before m0
  if ideal ≤ after then
    if reversed ∧ ideal ≤ before then (cp - (ideal : Int) - (m1 : Int), ideal)
    else (cp + (cs : Int) + (m0 : Int), ideal)
  else if ideal ≤ before then (cp - (ideal : Int) - (m1 : Int), ideal)
  else if after < before then (rp, before)
  else (cp + (cs : Int) + (m0 : Int), after)

/-- Perpendicular-axis popup placement (the place_out closure of
Window::resize_popup, src/src/widget/window.rs lines 251-255). -/
def place_out (rp : Int) (rs : Nat) (cp : Int) (cs ideal : Nat) : Int × Nat :=
  let pos := max (min cp (rp + (rs : Int) - (ideal : Int))) rp
  let size := min (Nat.max ideal cs) rs
  (pos, size)

/-- Perpendicular-axis placement as the claim states it, written from the
spec's words for comparison with place_out: same size policy, but the
popup is centered around the anchor's extent when possible, clamped
within the window bounds. -/
def place_out_centered (rp : Int) (rs : Nat) (cp : Int) (cs ideal : Nat) : Int × Nat :=
  let size := min (Nat.max ideal cs) rs
  let centered := cp + (cs : Int) / 2 - (size : Int) / 2
  let pos := max (min centered (rp + (rs : Int) - (size : Int))) rp
  (pos, size)

/-- The popup rectangle computed by Window::resize_popup
(src/src/widget/window.rs lines 256-264): place_in on the axis of the
popup's direction, place_out on the other. -/
def resize_popup_rect (horiz reversed : Bool) (r c : Rect) (idealx idealy : Nat)
    (mh0 mh1 mv0 mv1 : Nat) : Rect :=
  if horiz then
    let xw := place_in reversed r.posx r.sizex c.posx c.sizex idealx mh0 mh1
    let yh := place_out r.posy r.sizey c.posy c.sizey idealy
    ⟨xw.1, yh.1, xw.2, yh.2⟩
  else
    let xw := place_out r.posx r.sizex c.posx c.sizex idealx
    let yh := place_in reversed r.posy r.sizey c.posy c.sizey idealy mv0 mv1
    ⟨xw.1, yh.1, xw.2, yh.2⟩

/-- A concrete child query reporting a fixed size of 5, used in concrete
instantiations. -/
def childFix5 : AxisInfo → SizeRules := fun _ => SizeRules.fixedRule 5

theorem ceilShare_le_total (t x w : Nat) (hx : x ≤ w) : ceilShare t x w ≤ t := by
  unfold ceilShare
  split
  · exact Nat.zero_le t
  · rename_i hw
    rw [Nat.div_le_iff_le_mul_add_pred (by omega)]
    have h1 : t * x ≤ t * w := Nat.mul_le_mul_left t hx
    have h2 : t * w = w * t := Nat.mul_comm t w
    omega

theorem ceilShare_le_weight (t x w : Nat) (ht : t ≤ w) : ceilShare t x w ≤ x := by
  unfold ceilShare
  split
  · exact Nat.zero_le x
  · rename_i hw
    rw [Nat.div_le_iff_le_mul_add_pred (by omega)]
    have h1 : t * x ≤ w * x := Nat.mul_le_mul_right x ht
    omega

theorem ceilShare_invariant (t x w : Nat) (ht : t ≤ w) (hx : x ≤ w) :
    t - ceilShare t x w ≤ w - x := by
  by_cases hlin : t + x ≤ w
  · omega
  · have hw : 0 < w := by omega
    have hge : t + x - w ≤ ceilShare t x w := by
      unfold ceilShare
      rw [if_neg (by omega)]
      rw [Nat.le_div_iff_mul_le hw]
      have hw1 : (1 : Nat) ≤ t * x + w := by omega
      zify [show w ≤ t + x by omega, hw1]
      nlinarith [mul_nonneg (sub_nonneg.mpr (show (t : ℤ) ≤ w by exact_mod_cast ht))
          (sub_nonneg.mpr (show (x : ℤ) ≤ w by exact_mod_cast hx)),
        show (1 : ℤ) ≤ w by exact_mod_cast hw]
    omega

theorem ceilShare_zero (x w : Nat) : ceilShare 0 x w = 0 := by
  unfold ceilShare
  split
  · rfl
  · rename_i hw
    have h1 : 0 * x + w - 1 = w - 1 := by omega
    rw [h1]
    exact Nat.div_eq_of_lt (by omega)

theorem distribGo_length : ∀ (ws : List Nat) (t w : Nat),
    (distribGo t w ws).length = ws.length := by
  intro ws
  induction ws with
  | nil => intro t w; rfl
  | cons x xs ih => intro t w; simp [distribGo, ih]

theorem distribGo_sum : ∀ (ws : List Nat) (t w : Nat), t ≤ w → w = ws.sum →
    (distribGo t w ws).sum = t := by
  intro ws
  induction ws with
  | nil =>
    intro t w ht hw
    simp only [List.sum_nil] at hw
    simp only [distribGo, List.sum_nil]
    omega
  | cons x xs ih =>
    intro t w ht hw
    simp only [List.sum_cons] at hw
    have hx : x ≤ w := by omega
    have h1 : ceilShare t x w ≤ t := ceilShare_le_total t x w hx
    have h2 : t - ceilShare t x w ≤ w - x := ceilShare_invariant t x w ht hx
    have h3 : (distribGo (t - ceilShare t x w) (w - x) xs).sum = t - ceilShare t x w :=
      ih _ _ h2 (by omega)
    simp only [distribGo, List.sum_cons, h3]
    omega

theorem distribGo_getD_le : ∀ (ws : List Nat) (t w : Nat), t ≤ w → w = ws.sum →
    ∀ i, (distribGo t w ws).getD i 0 ≤ ws.getD i 0 := by
  intro ws
  induction ws with
  | nil => intro t w _ _ i; simp [distribGo]
  | cons x xs ih =>
    intro t w ht hw i
    simp only [List.sum_cons] at hw
    cases i with
    | zero =>
      simp only [distribGo, List.getD_cons_zero]
      exact ceilShare_le_weight t x w ht
    | succ j =>
      simp only [distribGo, List.getD_cons_succ]
      exact ih _ _ (ceilShare_invariant t x w ht (by omega)) (by omega) j

theorem distribGo_zero : ∀ (ws : List Nat) (w : Nat),
    distribGo 0 w ws = List.replicate ws.length 0 := by
  intro ws
  induction ws with
  | nil => intro w; rfl
  | cons x xs ih =>
    intro w
    simp only [distribGo, ceilShare_zero, Nat.sub_zero, List.length_cons,
      List.replicate_succ, ih]

theorem sum_zipWith_add : ∀ (a b : List Nat), a.length = b.length →
    (List.zipWith (· + ·) a b).sum = a.sum + b.sum := by
  intro a
  induction a with
  | nil =>
    intro b h
    cases b with
    | nil => simp
    | cons y ys => simp at h
  | cons x xs ih =>
    intro b h
    cases b with
    | nil => simp at h
    | cons y ys =>
      simp only [List.zipWith_cons_cons, List.sum_cons, List.length_cons] at h ⊢
      rw [ih ys (by omega)]
      omega

theorem getD_zipWith_add : ∀ (a b : List Nat) (i : Nat), a.length = b.length →
    (List.zipWith (· + ·) a b).getD i 0 = a.getD i 0 + b.getD i 0 := by
  intro a
  induction a with
  | nil =>
    intro b i h
    cases b with
    | nil => simp
    | cons y ys => simp at h
  | cons x xs ih =>
    intro b i h
    cases b with
    | nil => simp at h
    | cons y ys =>
      simp only [List.length_cons] at h
      cases i with
      | zero => simp [List.zipWith_cons_cons]
      | succ j =>
        simp only [List.zipWith_cons_cons, List.getD_cons_succ]
        exact ih ys j (by omega)

theorem tierShares_length : ∀ (bs : List Bool) (q r : Nat),
    (tierShares q r bs).length = bs.length := by
  intro bs
  induction bs with
  | nil => intro q r; rfl
  | cons b bs ih => intro q r; cases b <;> simp [tierShares, ih]

theorem tierShares_sum : ∀ (bs : List Bool) (q r : Nat), r ≤ bs.count true →
    (tierShares q r bs).sum = q * bs.count true + r := by
  intro bs
  induction bs with
  | nil =>
    intro q r h
    simp only [List.count_nil, Nat.le_zero] at h
    simp [tierShares, h]
  | cons b bs ih =>
    intro q r h
    cases b with
    | false =>
      have hc : (false :: bs).count true = bs.count true := by simp [List.count_cons]
      rw [hc] at h ⊢
      simp only [tierShares, Bool.false_eq_true, if_false, List.sum_cons]
      rw [ih q r h]
      omega
    | true =>
      have hc : (true :: bs).count true = bs.count true + 1 := by simp [List.count_cons]
      rw [hc] at h ⊢
      have hmul : q * (bs.count true + 1) = q * bs.count true + q := by ring
      by_cases hr : 0 < r
      · simp only [tierShares, if_true, List.sum_cons, if_pos hr]
        rw [ih q (r - 1) (by omega)]
        omega
      · simp only [tierShares, if_true, List.sum_cons, if_neg hr]
        rw [ih q (r - 1) (by omega)]
        omega

theorem StretchPolicy.rank_le_max_left (a b : StretchPolicy) : a.rank ≤ (a.max b).rank := by
  unfold StretchPolicy.max
  split
  · omega
  · exact Nat.le_refl _

theorem StretchPolicy.rank_le_max_right (a b : StretchPolicy) : b.rank ≤ (a.max b).rank := by
  unfold StretchPolicy.max
  split
  · exact Nat.le_refl _
  · omega

theorem foldl_tier_rank_le : ∀ (l : List SizeRules) (a : StretchPolicy),
    a.rank ≤ (l.foldl (fun acc r => acc.max r.stretch) a).rank := by
  intro l
  induction l with
  | nil => intro a; simp
  | cons x xs ih =>
    intro a
    simp only [List.foldl_cons]
    calc a.rank ≤ (a.max x.stretch).rank := StretchPolicy.rank_le_max_left a x.stretch
      _ ≤ _ := ih _

theorem foldl_tier_rank_mem : ∀ (l : List SizeRules) (a : StretchPolicy) (r : SizeRules),
    r ∈ l → r.stretch.rank ≤ (l.foldl (fun acc s => acc.max s.stretch) a).rank := by
  intro l
  induction l with
  | nil => intro a r h; simp at h
  | cons x xs ih =>
    intro a r h
    simp only [List.foldl_cons]
    rcases List.mem_cons.mp h with heq | hmem
    · subst heq
      calc r.stretch.rank ≤ (a.max r.stretch).rank := StretchPolicy.rank_le_max_right a r.stretch
        _ ≤ _ := foldl_tier_rank_le xs _
    · exact ih _ r hmem

theorem foldl_tier_attained : ∀ (l : List SizeRules) (a : StretchPolicy),
    l.foldl (fun acc r => acc.max r.stretch) a = a ∨
      ∃ r ∈ l, l.foldl (fun acc r => acc.max r.stretch) a = r.stretch := by
  intro l
  induction l with
  | nil => intro a; left; rfl
  | cons x xs ih =>
    intro a
    simp only [List.foldl_cons]
    rcases ih (a.max x.stretch) with heq | ⟨r, hr, heq⟩
    · rw [heq]
      unfold StretchPolicy.max
      split
      · right; exact ⟨x, List.mem_cons_self x xs, rfl⟩
      · left; rfl
    · right; exact ⟨r, List.mem_cons_of_mem x hr, heq⟩

theorem stretch_rank_zero_iff (s : StretchPolicy) : s.rank = 0 ↔ s = StretchPolicy.stretchFixed := by
  cases s <;> simp [StretchPolicy.rank]

theorem sum_map_idealC : ∀ (rules : List SizeRules),
    (rules.map SizeRules.idealC).sum =
      (rules.map SizeRules.min).sum + (rules.map SizeRules.headroom).sum := by
  intro rules
  induction rules with
  | nil => simp
  | cons r rs ih =>
    simp only [List.map_cons, List.sum_cons, ih]
    have h : r.idealC = r.min + r.headroom := by
      unfold SizeRules.idealC SizeRules.headroom
      rw [Nat.max]
      omega
    omega

theorem getD_replicate_zero : ∀ (n i : Nat), (List.replicate n (0 : Nat)).getD i 0 = 0 := by
  intro n
  induction n with
  | zero => intro i; rfl
  | succ m ih => intro i; cases i <;> simp [List.replicate_succ, ih]

theorem zipWith_add_zero_left : ∀ (l : List Nat),
    List.zipWith (· + ·) (List.replicate l.length 0) l = l := by
  intro l
  induction l with
  | nil => rfl
  | cons x xs ih => simp [List.replicate_succ, ih]

theorem sum_replicate_nat (n x : Nat) : (List.replicate n x).sum = n * x := by
  rw [List.sum_replicate, smul_eq_mul]

theorem ceilDiv_eq_div_add (a b : Nat) (hb : 0 < b) :
    (a + b - 1) / b = a / b + if a % b = 0 then 0 else 1 := by
  have hqr := Nat.div_add_mod a b
  set q := a / b
  set r := a % b
  have hr : r < b := Nat.mod_lt a hb
  by_cases hr0 : r = 0
  · rw [if_pos hr0]
    have h1 : a + b - 1 = b * q + (b - 1) := by omega
    rw [h1, Nat.mul_add_div hb, Nat.div_eq_of_lt (by omega)]
  · rw [if_neg hr0]
    have hmul : b * (q + 1) = b * q + b := by ring
    have h1 : a + b - 1 = b * (q + 1) + (r - 1) := by omega
    rw [h1, Nat.mul_add_div hb, Nat.div_eq_of_lt (by omega)]

theorem ceilShare_cancel (S h n : Nat) (hh : 0 < h) :
    ceilShare S h ((n + 1) * h) = S / (n + 1) + if S % (n + 1) = 0 then 0 else 1 := by
  have hW : (n + 1) * h ≠ 0 := Nat.mul_ne_zero (by omega) (by omega)
  unfold ceilShare
  rw [if_neg hW]
  rw [ceilDiv_eq_div_add (S * h) ((n + 1) * h) (Nat.pos_of_ne_zero hW)]
  rw [Nat.mul_div_mul_right S (n + 1) hh]
  rw [Nat.mul_mod_mul_right h S (n + 1)]
  have hiff : (S % (n + 1) * h = 0) ↔ (S % (n + 1) = 0) := by
    constructor
    · intro hz
      rcases Nat.mul_eq_zero.mp hz with h1 | h2
      · exact h1
      · omega
    · intro hz
      rw [hz, Nat.zero_mul]
  rw [if_congr hiff rfl rfl]

theorem distribGo_replicate (h : Nat) (hh : 0 < h) : ∀ (n S : Nat), S ≤ n * h →
    distribGo S (n * h) (List.replicate n h) =
      (List.range n).map (fun j => S / n + if j < S % n then 1 else 0) := by
  intro n
  induction n with
  | zero =>
    intro S hS
    have hS0 : S = 0 := by omega
    subst hS0
    simp [distribGo]
  | succ n ih =>
    intro S hS
    have hq := Nat.div_add_mod S (n + 1)
    set q := S / (n + 1) with hqdef
    set r := S % (n + 1) with hrdef
    have hr : r < n + 1 := Nat.mod_lt S (by omega)
    have hm2 : (n + 1) * h = n * h + h := by ring
    have hm1 : (n + 1) * q = n * q + q := by ring
    have hWrec : (n + 1) * h - h = n * h := by omega
    have hshare := ceilShare_cancel S h n hh
    rw [List.replicate_succ]
    show ceilShare S h ((n + 1) * h) ::
        distribGo (S - ceilShare S h ((n + 1) * h)) ((n + 1) * h - h) (List.replicate n h) =
      (List.range (n + 1)).map (fun j => q + if j < r then 1 else 0)
    rw [hshare, hWrec, List.range_succ_eq_map, List.map_cons, List.map_map]
    by_cases hr0 : r = 0
    · rw [if_pos hr0]
      have hq1 : q ≤ h := by
        by_contra hc
        push_neg at hc
        have h1 := Nat.mul_le_mul_left (n + 1) (show h + 1 ≤ q by omega)
        have h2 : (n + 1) * (h + 1) = (n + 1) * h + (n + 1) := by ring
        omega
      have htail : S - (q + 0) = n * q := by omega
      rw [htail, ih (n * q) (Nat.mul_le_mul_left n hq1)]
      congr 1
      · simp [hr0]
      · apply List.map_congr_left
        intro j hj
        simp only [Function.comp_apply]
        have hdiv : n * q / n = q := by
          cases Nat.eq_zero_or_pos n with
          | inl hn0 =>
            exfalso
            simp only [List.mem_range] at hj
            omega
          | inr hn => exact Nat.mul_div_cancel_left q hn
        have hmod : n * q % n = 0 := Nat.mul_mod_right n q
        rw [hdiv, hmod]
        rw [if_neg (by omega), if_neg (by omega)]
    · rw [if_neg hr0]
      have hq1 : q + 1 ≤ h := by
        by_contra hc
        push_neg at hc
        have h1 := Nat.mul_le_mul_left (n + 1) (show h ≤ q by omega)
        omega
      have hn : 0 < n := by omega
      have htail : S - (q + 1) = n * q + (r - 1) := by omega
      have hS2 : n * q + (r - 1) ≤ n * h := by
        have h1 := Nat.mul_le_mul_left n hq1
        have h2 : n * (q + 1) = n * q + n := by ring
        omega
      rw [htail, ih (n * q + (r - 1)) hS2]
      congr 1
      · rw [if_pos (by omega)]
      · apply List.map_congr_left
        intro j hj
        simp only [Function.comp_apply]
        have hdiv : (n * q + (r - 1)) / n = q := by
          rw [Nat.mul_add_div hn, Nat.div_eq_of_lt (by omega)]
          omega
        have hmod : (n * q + (r - 1)) % n = r - 1 := by
          rw [Nat.mul_add_mod, Nat.mod_eq_of_lt (by omega)]
        rw [hdiv, hmod]
        by_cases hjr : j < r - 1
        · rw [if_pos hjr, if_pos (by omega)]
        · rw [if_neg hjr, if_neg (by omega)]

theorem growWidths_length (slack : Nat) (rules : List SizeRules) :
    (growWidths slack rules).length = rules.length := by
  unfold growWidths distribute
  rw [List.length_zipWith, distribGo_length]
  simp

theorem growWidths_sum (slack : Nat) (rules : List SizeRules)
    (hsl : slack ≤ (rules.map SizeRules.headroom).sum) :
    (growWidths slack rules).sum = (rules.map SizeRules.min).sum + slack := by
  unfold growWidths distribute
  rw [sum_zipWith_add _ _ (by rw [distribGo_length]; simp)]
  rw [distribGo_sum _ _ _ hsl rfl]

theorem maxTier_ne_of_mem (rules : List SizeRules) (r : SizeRules) (hr : r ∈ rules)
    (hne : r.stretch ≠ StretchPolicy.stretchFixed) :
    maxTier rules ≠ StretchPolicy.stretchFixed := by
  intro hfix
  have hb : r.stretch.rank ≤ (maxTier rules).rank :=
    foldl_tier_rank_mem rules StretchPolicy.stretchFixed r hr
  rw [hfix] at hb
  apply hne
  cases hcase : r.stretch <;>
    first
      | rfl
      | (exfalso; rw [hcase] at hb; simp [StretchPolicy.rank] at hb)

theorem maxTier_mem_count (rules : List SizeRules)
    (hne : maxTier rules ≠ StretchPolicy.stretchFixed) :
    0 < (rules.map (fun r => r.stretch == maxTier rules)).count true := by
  rcases foldl_tier_attained rules StretchPolicy.stretchFixed with heq | ⟨r, hr, heq⟩
  · exact absurd heq hne
  · apply List.count_pos_iff.mpr
    apply List.mem_map.mpr
    refine ⟨r, hr, ?_⟩
    have heq2 : maxTier rules = r.stretch := heq
    rw [beq_iff_eq]
    exact heq2.symm

theorem stretchWidths_length (leftover : Nat) (rules : List SizeRules) :
    (stretchWidths leftover rules).length = rules.length := by
  simp only [stretchWidths]
  split
  · simp
  · rw [List.length_zipWith, tierShares_length]
    simp

theorem stretchWidths_sum (leftover : Nat) (rules : List SizeRules)
    (hne : maxTier rules ≠ StretchPolicy.stretchFixed) :
    (stretchWidths leftover rules).sum = (rules.map SizeRules.idealC).sum + leftover := by
  simp only [stretchWidths]
  rw [if_neg hne]
  have hp := maxTier_mem_count rules hne
  rw [sum_zipWith_add _ _ (by rw [tierShares_length]; simp)]
  rw [tierShares_sum _ _ _ (Nat.le_of_lt (Nat.mod_lt _ hp))]
  set cnt := (rules.map (fun r => r.stretch == maxTier rules)).count true with hcnt
  have hdm := Nat.div_add_mod leftover cnt
  have hc : leftover / cnt * cnt = cnt * (leftover / cnt) := Nat.mul_comm _ _
  omega

theorem natSub_cast_max (a b : Nat) : ((a - b : Nat) : ℤ) = max 0 ((a : ℤ) - (b : ℤ)) := by
  omega

theorem getD_map_range (f : Nat → Nat) (n i : Nat) (hi : i < n) :
    ((List.range n).map f).getD i 0 = f i := by
  rw [List.getD_eq_getElem _ _ (by simp [hi])]
  simp

/-- C1 counterexample: with a single Fixed-stretch child of min 0 and
ideal 0 and target 5, the claim's premise holds (5 is at least the
minimum sum plus margins) yet the widths sum to 0, not 5: the spec's
stretch phase forbids giving slack to Fixed-tier entries, so the stated
exactness fails for all-Fixed sequences past their ideal. -/
theorem solve_seq_exact_sum_cex :
    ((List.map SizeRules.min [SizeRules.EMPTY]).sum + gapTotal 1 0 ≤ 5) ∧
      (SizeRules.solve_seq 5 0 [SizeRules.EMPTY]).sum + gapTotal 1 0 ≠ 5 := by
  decide

/-- C1 (amended): whenever the target is at least the minimum sum plus
inter-child margins, and moreover some entry is non-Fixed or the target
does not exceed the ideal sum plus margins, the solved widths plus the
margins sum exactly to the target. -/
theorem solve_seq_exact_sum_amended (target g : Nat) (rules : List SizeRules)
    (hmin : (rules.map SizeRules.min).sum + gapTotal rules.length g ≤ target)
    (habs : (∃ r ∈ rules, r.stretch ≠ StretchPolicy.stretchFixed) ∨
      target ≤ (rules.map SizeRules.idealC).sum + gapTotal rules.length g) :
    (SizeRules.solve_seq target g rules).sum + gapTotal rules.length g = target := by
  have hidsum := sum_map_idealC rules
  simp only [SizeRules.solve_seq]
  rw [if_pos (by omega)]
  by_cases hsl : target - gapTotal rules.length g - (rules.map SizeRules.min).sum ≤
      (rules.map SizeRules.headroom).sum
  · rw [if_pos hsl, growWidths_sum _ _ hsl]
    omega
  · rw [if_neg hsl]
    have hne : maxTier rules ≠ StretchPolicy.stretchFixed := by
      rcases habs with ⟨r, hr, hner⟩ | hid
      · exact maxTier_ne_of_mem rules r hr hner
      · exfalso; omega
    rw [stretchWidths_sum _ _ hne]
    omega

theorem solve_seq_exact_sum_amended_witness :
    (SizeRules.solve_seq 70 0
        [⟨10, 50, 0, 0, .stretchFixed⟩, ⟨10, 20, 0, 0, .stretchFixed⟩,
          ⟨10, 30, 0, 0, .stretchFixed⟩]).sum + gapTotal 3 0 = 70 :=
  solve_seq_exact_sum_amended 70 0
    [⟨10, 50, 0, 0, .stretchFixed⟩, ⟨10, 20, 0, 0, .stretchFixed⟩,
      ⟨10, 30, 0, 0, .stretchFixed⟩] (by decide) (Or.inr (by decide))

/-- C2: when the target is below the minimum sum plus inter-child margins
(the shrink case), solve_seq still returns one width per child, each
width is at most the child's minimum (and non-negative by construction),
and the widths sum to max(0, target minus total inter-child margin). The
model is a total function, so no input panics. -/
theorem solve_seq_shrink_spec (target g : Nat) (rules : List SizeRules)
    (h : target < (rules.map SizeRules.min).sum + gapTotal rules.length g) :
    (SizeRules.solve_seq target g rules).length = rules.length ∧
    ((SizeRules.solve_seq target g rules).sum : ℤ) =
      max 0 ((target : ℤ) - (gapTotal rules.length g : ℤ)) ∧
    ∀ i, (SizeRules.solve_seq target g rules).getD i 0 ≤
      (rules.map SizeRules.min).getD i 0 := by
  have hkey : (SizeRules.solve_seq target g rules).length = rules.length ∧
      (SizeRules.solve_seq target g rules).sum = target - gapTotal rules.length g ∧
      ∀ i, (SizeRules.solve_seq target g rules).getD i 0 ≤
        (rules.map SizeRules.min).getD i 0 := by
    simp only [SizeRules.solve_seq]
    by_cases hbr : (rules.map SizeRules.min).sum ≤ target - gapTotal rules.length g
    · rw [if_pos hbr, if_pos (by omega)]
      refine ⟨growWidths_length _ _, ?_, ?_⟩
      · rw [growWidths_sum _ _ (by omega)]
        omega
      · intro i
        have hs0 : target - gapTotal rules.length g - (rules.map SizeRules.min).sum = 0 := by
          omega
        rw [hs0]
        unfold growWidths distribute
        rw [distribGo_zero]
        rw [getD_zipWith_add _ _ _ (by simp)]
        rw [getD_replicate_zero]
        omega
    · rw [if_neg hbr]
      unfold distribute
      refine ⟨by rw [distribGo_length]; simp, ?_, ?_⟩
      · exact distribGo_sum _ _ _ (by omega) rfl
      · intro i
        exact distribGo_getD_le _ _ _ (by omega) rfl i
  refine ⟨hkey.1, ?_, hkey.2.2⟩
  rw [hkey.2.1, natSub_cast_max]

theorem solve_seq_shrink_spec_witness :
    ((SizeRules.solve_seq 5 0 [SizeRules.fixedRule 10]).sum : ℤ) =
      max 0 ((5 : ℤ) - (gapTotal 1 0 : ℤ)) ∧
    (SizeRules.solve_seq 5 0 [SizeRules.fixedRule 10]).getD 0 0 ≤
      (List.map SizeRules.min [SizeRules.fixedRule 10]).getD 0 0 :=
  ⟨(solve_seq_shrink_spec 5 0 [SizeRules.fixedRule 10] (by decide)).2.1,
   (solve_seq_shrink_spec 5 0 [SizeRules.fixedRule 10] (by decide)).2.2 0⟩

/-- C3: solve_seq is a pure function, so identical inputs give identical
outputs; and in the tie-break-sensitive case where all n entries have
equal headroom h (equal proportional weight), the distribution gives
every entry the quotient of the slack by n, with the remainder going to
the first entries in index order: entry i receives one extra pixel
exactly when i is below the remainder. -/
theorem solve_seq_deterministic_tiebreak :
    (∀ (t1 t2 g1 g2 : Nat) (r1 r2 : List SizeRules), t1 = t2 → g1 = g2 → r1 = r2 →
      SizeRules.solve_seq t1 g1 r1 = SizeRules.solve_seq t2 g2 r2) ∧
    ∀ (n h S i : Nat), 0 < h → S ≤ n * h → i < n →
      (SizeRules.solve_seq S 0 (List.replicate n ⟨0, h, 0, 0, .stretchFixed⟩)).getD i 0 =
        S / n + if i < S % n then 1 else 0 := by
  constructor
  · intro t1 t2 g1 g2 r1 r2 ht hg hr
    rw [ht, hg, hr]
  · intro n h S i hh hS hi
    have hmin : List.map SizeRules.min
        (List.replicate n (⟨0, h, 0, 0, .stretchFixed⟩ : SizeRules)) =
        List.replicate n 0 := by rw [List.map_replicate]
    have hhead : List.map SizeRules.headroom
        (List.replicate n (⟨0, h, 0, 0, .stretchFixed⟩ : SizeRules)) =
        List.replicate n h := by
      rw [List.map_replicate]
      simp [SizeRules.headroom]
    have hlen : (List.replicate n (⟨0, h, 0, 0, .stretchFixed⟩ : SizeRules)).length = n :=
      List.length_replicate n _
    have hsolve : SizeRules.solve_seq S 0
        (List.replicate n (⟨0, h, 0, 0, .stretchFixed⟩ : SizeRules)) =
        distribGo S (n * h) (List.replicate n h) := by
      simp only [SizeRules.solve_seq, hmin, hhead, hlen, gapTotal, sum_replicate_nat]
      rw [if_pos (by omega), if_pos (by omega)]
      unfold growWidths distribute
      rw [hmin, hhead, sum_replicate_nat]
      have hS0 : S - (n - 1) * 0 - n * 0 = S := by omega
      rw [hS0]
      have hlen2 : (distribGo S (n * h) (List.replicate n h)).length = n := by
        rw [distribGo_length, List.length_replicate]
      rw [show List.replicate n (0 : Nat) =
          List.replicate (distribGo S (n * h) (List.replicate n h)).length 0 by rw [hlen2]]
      exact zipWith_add_zero_left _
    rw [hsolve, distribGo_replicate h hh n S hS]
    exact getD_map_range _ n i hi

theorem solve_seq_deterministic_tiebreak_witness :
    (SizeRules.solve_seq 4 0 (List.replicate 3 ⟨0, 2, 0, 0, .stretchFixed⟩)).getD 1 0 =
      4 / 3 + if 1 < 4 % 3 then 1 else 0 :=
  solve_seq_deterministic_tiebreak.2 3 2 4 1 (by decide) (by decide) (by decide)

theorem getD_replicate_self : ∀ (x : SizeRules) (n i : Nat),
    (List.replicate n x).getD i x = x := by
  intro x n
  induction n with
  | zero => intro i; rfl
  | succ m ih => intro i; cases i <;> simp [List.replicate_succ, ih]

theorem dyn_set_len_length (rules : List SizeRules) (len : Nat) :
    (DynRowStorage.set_len rules len).length = len := by
  unfold DynRowStorage.set_len
  rw [List.length_append, List.length_take, List.length_replicate]
  omega

theorem dyn_set_len_getD (rules : List SizeRules) (len i : Nat) (hi : i < len) :
    (DynRowStorage.set_len rules len).getD i SizeRules.EMPTY =
      if i < rules.length then rules.getD i SizeRules.EMPTY else SizeRules.EMPTY := by
  unfold DynRowStorage.set_len
  by_cases hir : i < rules.length
  · rw [if_pos hir]
    rw [List.getD_append _ _ _ _ (by rw [List.length_take]; omega)]
    rw [List.getD_eq_getElem _ _ (by rw [List.length_take]; omega)]
    rw [List.getD_eq_getElem _ _ hir]
    exact List.getElem_take rules
  · rw [if_neg hir]
    rw [List.getD_append_right _ _ _ _ (by rw [List.length_take]; omega)]
    exact getD_replicate_self _ _ _

theorem list_getD_set_self (l : List SizeRules) (i : Nat) (x : SizeRules)
    (hi : i < l.length) : (l.set i x).getD i SizeRules.EMPTY = x := by
  rw [List.getD_eq_getElem _ _ (by rw [List.length_set]; exact hi)]
  exact List.getElem_set_self _

theorem foldl_rowStep_storage_length : ∀ (l : List (Nat × (AxisInfo → SizeRules)))
    (p : RowSolver × List SizeRules), ((l.foldl rowStep p).2).length = p.2.length := by
  intro l
  induction l with
  | nil => intro p; rfl
  | cons ic l ih =>
    intro p
    rw [List.foldl_cons, ih]
    simp only [rowStep, RowSolver.for_child]
    split
    · simp
    · rfl

theorem foldl_rowStep_aiv : ∀ (l : List (Nat × (AxisInfo → SizeRules)))
    (p : RowSolver × List SizeRules),
    ((l.foldl rowStep p).1).axis_is_vertical = p.1.axis_is_vertical := by
  intro l
  induction l with
  | nil => intro p; rfl
  | cons ic l ih =>
    intro p
    rw [List.foldl_cons, ih]
    simp only [rowStep, RowSolver.for_child]
    split
    · rfl
    · rfl

/-- C10: AxisInfo::new round-trips with its accessors: other() recovers
exactly the optional fixed size passed in (in particular Some 0 stays
Some 0, not None), is_vertical() returns the direction passed in, and
is_horizontal() is its negation. -/
theorem axis_info_roundtrip : ∀ (vertical : Bool) (fixed : Option Nat),
    (AxisInfo.new vertical fixed).other = fixed ∧
    (AxisInfo.new vertical fixed).is_vertical = vertical ∧
    (AxisInfo.new vertical fixed).is_horizontal = !vertical := by
  intro vertical fixed
  refine ⟨?_, rfl, rfl⟩
  cases fixed <;> simp [AxisInfo.new, AxisInfo.other]

/-- C7: FixedRowStorage::set_len panics (modelled as none) exactly when the
requested length differs from the backing array's length, and on success
returns the rules unchanged; DynRowStorage::set_len is a total function
(never panics) that resizes to exactly len entries, keeping the existing
entries and filling any new slots with SizeRules::EMPTY. -/
theorem storage_set_len_spec : ∀ (rules : List SizeRules) (len : Nat),
    (FixedRowStorage.set_len rules len = none ↔ rules.length ≠ len) ∧
    (∀ out, FixedRowStorage.set_len rules len = some out → out = rules) ∧
    (DynRowStorage.set_len rules len).length = len ∧
    (∀ i, i < len →
      (DynRowStorage.set_len rules len).getD i SizeRules.EMPTY =
        if i < rules.length then rules.getD i SizeRules.EMPTY else SizeRules.EMPTY) := by
  intro rules len
  refine ⟨?_, ?_, dyn_set_len_length rules len, ?_⟩
  · unfold FixedRowStorage.set_len
    split
    · rename_i he; simp [he]
    · rename_i he; simp [he]
  · intro out hout
    unfold FixedRowStorage.set_len at hout
    split at hout
    · exact (Option.some_inj.mp hout).symm
    · exact absurd hout (by simp)
  · intro i hi
    exact dyn_set_len_getD rules len i hi

theorem storage_set_len_spec_witness :
    (∀ out, FixedRowStorage.set_len [SizeRules.EMPTY] 1 = some out → out = [SizeRules.EMPTY]) ∧
    (DynRowStorage.set_len [] 2).getD 0 SizeRules.EMPTY =
      if 0 < ([] : List SizeRules).length then ([] : List SizeRules).getD 0 SizeRules.EMPTY
      else SizeRules.EMPTY :=
  ⟨(storage_set_len_spec [SizeRules.EMPTY] 1).2.1,
   (storage_set_len_spec [] 2).2.2.2 0 (by decide)⟩

/-- C4: which combine mode RowSolver::for_child applies is decided exactly
by comparing the measured axis against the row's own direction: when they
agree (main axis) the child's reported rules are written to storage slot i
and sequential-combined into the running total; when they differ (cross
axis) the running total becomes the parallel combination with the child's
rules and storage is untouched. -/
theorem row_solver_combine_mode (axis : AxisInfo) (n : Nat) (dvert : Bool)
    (storage0 st : List SizeRules) (i : Nat) (f : AxisInfo → SizeRules) :
    (axis.vertical = dvert →
      (RowSolver.for_child (RowSolver.new axis n dvert storage0).1 st i f).2 =
          st.set i (f ((RowSolver.new axis n dvert storage0).1.childAxis i)) ∧
        (RowSolver.for_child (RowSolver.new axis n dvert storage0).1 st i f).1.rules =
          SizeRules.add (RowSolver.new axis n dvert storage0).1.rules
            (f ((RowSolver.new axis n dvert storage0).1.childAxis i))) ∧
    (axis.vertical ≠ dvert →
      (RowSolver.for_child (RowSolver.new axis n dvert storage0).1 st i f).2 = st ∧
        (RowSolver.for_child (RowSolver.new axis n dvert storage0).1 st i f).1.rules =
          SizeRules.max (RowSolver.new axis n dvert storage0).1.rules
            (f ((RowSolver.new axis n dvert storage0).1.childAxis i))) := by
  constructor
  · intro hv
    have haiv : (RowSolver.new axis n dvert storage0).1.axis_is_vertical = false := by
      simp [RowSolver.new, hv]
    simp [RowSolver.for_child, haiv]
  · intro hv
    have haiv : (RowSolver.new axis n dvert storage0).1.axis_is_vertical = true := by
      simp only [RowSolver.new]
      cases hb : axis.vertical <;> cases hd : dvert <;> simp_all
    simp [RowSolver.for_child, haiv]

theorem row_solver_combine_mode_witness :
    (RowSolver.for_child (RowSolver.new ⟨false, false, 0⟩ 1 false []).1
        [SizeRules.EMPTY, SizeRules.EMPTY] 0 childFix5).2 =
      [SizeRules.EMPTY, SizeRules.EMPTY].set 0
        (childFix5 ((RowSolver.new ⟨false, false, 0⟩ 1 false []).1.childAxis 0)) ∧
    (RowSolver.for_child (RowSolver.new ⟨false, false, 0⟩ 1 false []).1
        [SizeRules.EMPTY, SizeRules.EMPTY] 0 childFix5).1.rules =
      SizeRules.add (RowSolver.new ⟨false, false, 0⟩ 1 false []).1.rules
        (childFix5 ((RowSolver.new ⟨false, false, 0⟩ 1 false []).1.childAxis 0)) :=
  (row_solver_combine_mode ⟨false, false, 0⟩ 1 false [] [SizeRules.EMPTY, SizeRules.EMPTY]
    0 childFix5).1 rfl

/-- C9: on a cross-axis measurement with the other axis fixed, RowSolver::new
pre-solves the children's main-axis widths by running solve_seq over the
cached (resized) storage with the fixed extent, and the AxisInfo handed to
child i carries child i's own solved width as the fixed other-axis size
(the direction and fixed flag are preserved), not the container's total
extent. -/
theorem row_solver_cross_axis_child_widths (axis : AxisInfo) (n : Nat) (dvert : Bool)
    (storage : List SizeRules) (i : Nat)
    (hfix : axis.has_fixed = true) (hperp : Bool.xor axis.vertical dvert = true) :
    (RowSolver.new axis n dvert storage).1.widths =
      solveSeqCall n (DynRowStorage.set_len storage (n + 1)) axis.other_axis ∧
    (RowSolver.new axis n dvert storage).1.childAxis i =
      { axis with other_axis :=
          (solveSeqCall n (DynRowStorage.set_len storage (n + 1)) axis.other_axis).getD i 0 } := by
  have hw : (RowSolver.new axis n dvert storage).1.widths =
      solveSeqCall n (DynRowStorage.set_len storage (n + 1)) axis.other_axis := by
    simp [RowSolver.new, hfix, hperp]
  refine ⟨hw, ?_⟩
  simp [RowSolver.childAxis, RowSolver.new, hfix, hperp]

theorem row_solver_cross_axis_child_widths_witness :
    (RowSolver.new ⟨false, true, 47⟩ 2 true
        [SizeRules.fixedRule 10, SizeRules.fixedRule 20, SizeRules.EMPTY]).1.widths =
      solveSeqCall 2 (DynRowStorage.set_len
        [SizeRules.fixedRule 10, SizeRules.fixedRule 20, SizeRules.EMPTY] 3) 47 ∧
    (RowSolver.new ⟨false, true, 47⟩ 2 true
        [SizeRules.fixedRule 10, SizeRules.fixedRule 20, SizeRules.EMPTY]).1.childAxis 1 =
      { (⟨false, true, 47⟩ : AxisInfo) with other_axis :=
          (solveSeqCall 2 (DynRowStorage.set_len
            [SizeRules.fixedRule 10, SizeRules.fixedRule 20, SizeRules.EMPTY] 3) 47).getD 1 0 } :=
  row_solver_cross_axis_child_widths ⟨false, true, 47⟩ 2 true
    [SizeRules.fixedRule 10, SizeRules.fixedRule 20, SizeRules.EMPTY] 1 rfl rfl

/-- C6 counterexample: a completed cross-axis pass (row direction
horizontal, measured axis vertical, other axis not fixed) over one child
reporting a fixed size of 5 has storage of length 2 as claimed, but its
last slot still holds EMPTY while the pass's aggregate is the fixed-5
rules: RowSolver::finish writes the aggregate only on a main-axis pass. -/
theorem row_solver_storage_aggregate_cex :
    (runRowPass ⟨true, false, 0⟩ false [childFix5] []).2.getD 1 SizeRules.EMPTY ≠
      (runRowPass ⟨true, false, 0⟩ false [childFix5] []).1 := by
  decide

/-- C6 (amended): after a completed RowSolver pass over n children the
persistent storage always has length n+1; when the measured axis equals
the row's own direction (a main-axis pass) the last slot (index n) holds
the aggregated rules returned by the pass. On a cross-axis pass the
storage contents are left as new resized them, so the last slot need not
hold the cross-axis aggregate. -/
theorem row_solver_storage_aggregate_amended (axis : AxisInfo) (dvert : Bool)
    (children : List (AxisInfo → SizeRules)) (storage : List SizeRules) :
    (runRowPass axis dvert children storage).2.length = children.length + 1 ∧
    (axis.vertical = dvert →
      (runRowPass axis dvert children storage).2.getD children.length SizeRules.EMPTY =
        (runRowPass axis dvert children storage).1) := by
  have hinit : ((RowSolver.new axis children.length dvert storage).2).length =
      children.length + 1 := dyn_set_len_length storage (children.length + 1)
  have hfold := foldl_rowStep_storage_length children.enum
    (RowSolver.new axis children.length dvert storage)
  have hlen : ((children.enum.foldl rowStep
      (RowSolver.new axis children.length dvert storage)).2).length =
      children.length + 1 := by rw [hfold]; exact hinit
  constructor
  · unfold runRowPass
    simp only [RowSolver.finish]
    split
    · rw [List.length_set]
      exact hlen
    · exact hlen
  · intro hv
    have haiv0 : (RowSolver.new axis children.length dvert storage).1.axis_is_vertical =
        false := by simp [RowSolver.new, hv]
    have haiv : ((children.enum.foldl rowStep
        (RowSolver.new axis children.length dvert storage)).1).axis_is_vertical = false := by
      rw [foldl_rowStep_aiv]; exact haiv0
    unfold runRowPass
    simp only [RowSolver.finish, haiv]
    rw [if_pos (show (!false) = true from rfl)]
    rw [show ((children.enum.foldl rowStep
        (RowSolver.new axis children.length dvert storage)).2).length - 1 =
        children.length by omega]
    exact list_getD_set_self _ children.length _ (by omega)

theorem row_solver_storage_aggregate_amended_witness :
    (runRowPass ⟨false, false, 0⟩ false [childFix5] []).2.length = 2 ∧
    (runRowPass ⟨false, false, 0⟩ false [childFix5] []).2.getD 1 SizeRules.EMPTY =
      (runRowPass ⟨false, false, 0⟩ false [childFix5] []).1 :=
  ⟨(row_solver_storage_aggregate_amended ⟨false, false, 0⟩ false [childFix5] []).1,
   (row_solver_storage_aggregate_amended ⟨false, false, 0⟩ false [childFix5] []).2 rfl⟩

/-- C5 (code evaluation at the failing input): container rect at x=100,
width 50, outer first margin 3, inter-child margin 2, two children whose
cached rules solve to widths 10 and 20. The first child rectangle
produced by RowSetter::child_rect starts at x = 100 + 3 + 2 = 105, not at
the container position plus the outer first margin (103): the cursor
update adds the inter margin before the first child as well, despite the
"hack to get correct first offset" comment. Subsequent children do
advance by the previous width plus the inter margin as claimed (child 1
starts at 105 + 10 + 2 = 117 and has extent 20). -/
theorem row_setter_first_child_offset :
    (((RowSetter.new ⟨100, 0, 50, 10⟩ ⟨3, 0, 0, 0, 2, 0⟩ 2 false
        [SizeRules.fixedRule 10, SizeRules.fixedRule 20, SizeRules.EMPTY]).1.child_rect
        0).1.posx = 105) ∧
    ((100 : Int) + ((3 : Nat) : Int) = 103) ∧ ((105 : Int) ≠ 103) ∧
    ((((RowSetter.new ⟨100, 0, 50, 10⟩ ⟨3, 0, 0, 0, 2, 0⟩ 2 false
        [SizeRules.fixedRule 10, SizeRules.fixedRule 20, SizeRules.EMPTY]).1.child_rect
        0).2.child_rect 1).1.posx = 117) ∧
    ((((RowSetter.new ⟨100, 0, 50, 10⟩ ⟨3, 0, 0, 0, 2, 0⟩ 2 false
        [SizeRules.fixedRule 10, SizeRules.fixedRule 20, SizeRules.EMPTY]).1.child_rect
        0).2.child_rect 1).1.sizex = 20) := by
  decide

/-- C8 counterexample: window from 0 with extent 100, anchor at 40 with
extent 10, ideal 30 on the perpendicular axis: place_out puts the popup
at the anchor's start (40), while centering around the anchor's extent,
as the claim states, would put it at 30, which fits within the window;
the perpendicular placement is start-aligned, not centered. -/
theorem popup_perp_not_centered_cex :
    place_out 0 100 40 10 30 = ((40 : Int), (30 : Nat)) ∧
    place_out_centered 0 100 40 10 30 = ((30 : Int), (30 : Nat)) ∧
    (((40 : Int), (30 : Nat)) ≠ ((30 : Int), (30 : Nat))) := by
  decide

/-- C8 (amended): on the primary axis place_in behaves exactly as the
claim states: after-placement at ideal size when the room after suffices,
unless the direction is reversed and the room before also suffices, then
before-placement; otherwise before-placement at ideal when the room
before suffices; otherwise the side with more room at that room's size
(ties go to after). On the perpendicular axis place_out sizes the popup
to the ideal enlarged to at least the anchor's extent and capped at the
window's extent, keeps it within the window, and aligns it with the
anchor's start position whenever that fits (not centered).
resize_popup applies place_in on the popup direction's axis and
place_out on the other. -/
theorem popup_placement_amended (reversed : Bool) (rp : Int) (rs : Nat) (cp : Int)
    (cs ideal m0 m1 : Nat) (r c : Rect) (idealx idealy mh0 mh1 mv0 mv1 : Nat) :
    (ideal ≤ roomAfter rs cs (roomBefore rp cp m1) m0 →
      ¬(reversed = true ∧ ideal ≤ roomBefore rp cp m1) →
      place_in reversed rp rs cp cs ideal m0 m1 = (cp + (cs : Int) + (m0 : Int), ideal)) ∧
    (ideal ≤ roomAfter rs cs (roomBefore rp cp m1) m0 → reversed = true →
      ideal ≤ roomBefore rp cp m1 →
      place_in reversed rp rs cp cs ideal m0 m1 = (cp - (ideal : Int) - (m1 : Int), ideal)) ∧
    (roomAfter rs cs (roomBefore rp cp m1) m0 < ideal →
      ideal ≤ roomBefore rp cp m1 →
      place_in reversed rp rs cp cs ideal m0 m1 = (cp - (ideal : Int) - (m1 : Int), ideal)) ∧
    (roomAfter rs cs (roomBefore rp cp m1) m0 < ideal →
      roomBefore rp cp m1 < ideal →
      roomAfter rs cs (roomBefore rp cp m1) m0 < roomBefore rp cp m1 →
      place_in reversed rp rs cp cs ideal m0 m1 = (rp, roomBefore rp cp m1)) ∧
    (roomAfter rs cs (roomBefore rp cp m1) m0 < ideal →
      roomBefore rp cp m1 < ideal →
      roomBefore rp cp m1 ≤ roomAfter rs cs (roomBefore rp cp m1) m0 →
      place_in reversed rp rs cp cs ideal m0 m1 =
        (cp + (cs : Int) + (m0 : Int), roomAfter rs cs (roomBefore rp cp m1) m0)) ∧
    ((place_out rp rs cp cs ideal).2 = min (Nat.max ideal cs) rs) ∧
    (rp ≤ (place_out rp rs cp cs ideal).1) ∧
    (ideal ≤ rs → (place_out rp rs cp cs ideal).1 + (ideal : Int) ≤ rp + (rs : Int)) ∧
    (rp ≤ cp → cp + (ideal : Int) ≤ rp + (rs : Int) →
      (place_out rp rs cp cs ideal).1 = cp) ∧
    (resize_popup_rect true reversed r c idealx idealy mh0 mh1 mv0 mv1 =
      ⟨(place_in reversed r.posx r.sizex c.posx c.sizex idealx mh0 mh1).1,
       (place_out r.posy r.sizey c.posy c.sizey idealy).1,
       (place_in reversed r.posx r.sizex c.posx c.sizex idealx mh0 mh1).2,
       (place_out r.posy r.sizey c.posy c.sizey idealy).2⟩) ∧
    (resize_popup_rect false reversed r c idealx idealy mh0 mh1 mv0 mv1 =
      ⟨(place_out r.posx r.sizex c.posx c.sizex idealx).1,
       (place_in reversed r.posy r.sizey c.posy c.sizey idealy mv0 mv1).1,
       (place_out r.posx r.sizex c.posx c.sizex idealx).2,
       (place_in reversed r.posy r.sizey c.posy c.sizey idealy mv0 mv1).2⟩) := by
  refine ⟨?_, ?_, ?_, ?_, ?_, ?_, ?_, ?_, ?_, ?_, ?_⟩
  · intro h1 h2
    simp only [place_in]
    rw [if_pos h1, if_neg h2]
  · intro h1 h2 h3
    simp only [place_in]
    rw [if_pos h1, if_pos ⟨h2, h3⟩]
  · intro h1 h2
    simp only [place_in]
    rw [if_neg (by omega), if_pos h2]
  · intro h1 h2 h3
    simp only [place_in]
    rw [if_neg (by omega), if_neg (by omega), if_pos h3]
  · intro h1 h2 h3
    simp only [place_in]
    rw [if_neg (by omega), if_neg (by omega), if_neg (by omega)]
  · rfl
  · simp only [place_out]
    omega
  · intro h
    simp only [place_out]
    omega
  · intro h1 h2
    simp only [place_out]
    omega
  · rfl
  · rfl

theorem popup_placement_amended_witness :
    place_in false 0 100 10 5 20 0 0 = ((15 : Int), (20 : Nat)) := by
  have h := (popup_placement_amended false 0 100 10 5 20 0 0
    ⟨0, 0, 0, 0⟩ ⟨0, 0, 0, 0⟩ 0 0 0 0 0 0).1 (by decide) (by decide)
  rw [h]
  decide
